import Mathlib

/-!
Verification of the `go-lru-cache` repository (`src/lru.go`): a generic,
bounded-capacity LRU cache built from a doubly-linked recency list
(`container/list`) and a key index (`map[K]*list.Element`), with an optional
eviction callback.

Shallow embedding conventions:
* The recency list is a `List (K × V)`; the head is the front of the list
  (most recently used), the last element is the back (least recently used).
* The index `map[K]*list.Element` is modelled by the list `idx : List K` of
  keys present in the map; an index entry for key `k` designates the (under
  the bijection invariant, unique) node of the recency list holding key `k`,
  so dereferencing `c.idx[key]` is modelled by `List.find?` on the list.
* The capacity is the Go `int` field `cap`, modelled as `Int`.
* Go's `var zero V` (the zero value of the value type) is modelled as
  `(default : V)` for an `Inhabited V`.
* The eviction callback `onEvict func(K, V)` carries no information beyond
  being set or nil, so it is modelled as a `Bool`; each `Put` returns,
  besides the new state, the list of callback invocations `(key, value)` it
  performed (empty when `onEvict` is nil).
* The `sync.RWMutex` is not modelled: each operation is embedded as the
  atomic state transformation it performs when run without interference.
-/

set_option linter.unusedSectionVars false

namespace GoLRU

/-- The `LRU[K, V]` struct of `src/lru.go`: capacity, recency list (front =
most recently used), key index, and whether an eviction callback is set. -/
structure LRU (K V : Type) where
  cap : Int
  l : List (K × V)
  idx : List K
  onEvict : Bool

/-- `NewLRU(capacity)`: errors when `capacity <= 0`, otherwise returns the
empty cache with that capacity. -/
def NewLRU (K V : Type) (capacity : Int) : Except String (LRU K V) :=
  if capacity ≤ 0 then
    .error "capacity must be greater than 0"
  else
    .ok { cap := capacity, l := [], idx := [], onEvict := false }

variable {K V : Type} [DecidableEq K] [Inhabited V]

/-- `Get(key)`: looks up the index; on a hit moves the node to the front
(`MoveToFront`) and returns its value with `true`; on a miss returns the
zero value with `false`. The inner `none` branch corresponds to an index
entry whose node is not in the list; it is unreachable for well-formed
states (see the bijection invariant). -/
def LRU.Get (c : LRU K V) (k : K) : (V × Bool) × LRU K V :=
  if k ∈ c.idx then
    match c.l.find? (fun p => p.1 == k) with
    | some el => ((el.2, true), { c with l := el :: c.l.eraseP (fun p => p.1 == k) })
    | none => ((default, false), c)
  else
    ((default, false), c)

/-- `Put(key, val)`: on a hit updates the node's value in place and moves it
to the front; on a miss pushes a new node at the front and registers it in
the index, then, if the list length exceeds capacity, removes the back node,
deletes its key from the index and (when set) invokes the eviction callback
with its pair. The second component collects the callback invocations. -/
def LRU.Put (c : LRU K V) (k : K) (v : V) : LRU K V × List (K × V) :=
  if k ∈ c.idx then
    ({ c with l := (k, v) :: c.l.eraseP (fun p => p.1 == k) }, [])
  else
    let l1 := (k, v) :: c.l
    let idx1 := k :: c.idx
    if (l1.length : Int) > c.cap then
      match l1.getLast? with
      | some tail =>
          ({ c with l := l1.dropLast, idx := idx1.erase tail.1 },
           if c.onEvict then [tail] else [])
      | none =>
          ({ c with l := l1, idx := idx1 }, [])
    else
      ({ c with l := l1, idx := idx1 }, [])

/-- `Len()`: the length of the recency list, as a Go `int`. -/
def LRU.Len (c : LRU K V) : Int := c.l.length

/-- `SetEvictionCallback(fn)`: replaces the callback; `fn` records whether
the new callback is non-nil. -/
def LRU.SetEvictionCallback (c : LRU K V) (fn : Bool) : LRU K V :=
  { c with onEvict := fn }

/-- One API call against the cache. -/
inductive Op (K V : Type) where
  | get (k : K)
  | put (k : K) (v : V)
  | len
  | setCallback (fn : Bool)

/-- Apply one API call to the state (`Len` does not change it). -/
def applyOp (c : LRU K V) (op : Op K V) : LRU K V :=
  match op with
  | .get k => (c.Get k).2
  | .put k v => (c.Put k v).1
  | .len => c
  | .setCallback fn => c.SetEvictionCallback fn

/-- Run a sequence of API calls from a state. -/
def runOps (c : LRU K V) (ops : List (Op K V)) : LRU K V :=
  ops.foldl applyOp c

/-- Well-formedness: the index holds exactly the keys of the recency list
(as a multiset), those keys are pairwise distinct, the resident count is at
most the capacity, and the capacity is positive. -/
def WF (c : LRU K V) : Prop :=
  c.idx.Perm (c.l.map Prod.fst) ∧ (c.l.map Prod.fst).Nodup ∧
    (c.l.length : Int) ≤ c.cap ∧ 1 ≤ c.cap

/-- A state reachable from a validly constructed cache by some sequence of
API calls. -/
def Reachable (c : LRU K V) : Prop :=
  ∃ (capacity : Int) (c0 : LRU K V) (ops : List (Op K V)),
    NewLRU K V capacity = .ok c0 ∧ runOps c0 ops = c

/-! ### Helper lemmas -/

theorem NewLRU_ok {capacity : Int} {c0 : LRU K V}
    (h : NewLRU K V capacity = .ok c0) :
    1 ≤ capacity ∧ c0 = ⟨capacity, [], [], false⟩ := by
  unfold NewLRU at h
  split at h
  · exact absurd h (by simp)
  · rename_i hc
    refine ⟨by omega, ?_⟩
    cases h
    rfl

theorem find?_key {l : List (K × V)} {k : K} {el : K × V}
    (h : l.find? (fun p => p.1 == k) = some el) : el.1 = k := by
  have := List.find?_some h
  simpa using this

theorem find?_some_of_mem_keys {l : List (K × V)} {k : K}
    (h : k ∈ l.map Prod.fst) :
    ∃ el, l.find? (fun p => p.1 == k) = some el := by
  cases hfind : l.find? (fun p => p.1 == k) with
  | some el => exact ⟨el, rfl⟩
  | none =>
    rcases List.mem_map.1 h with ⟨p, hp, hk⟩
    have := List.find?_eq_none.1 hfind p hp
    simp [hk] at this

theorem find?_cons_eraseP_perm {l : List (K × V)} {p : K × V → Bool}
    {el : K × V} (h : l.find? p = some el) :
    (el :: l.eraseP p).Perm l := by
  induction l with
  | nil => simp at h
  | cons hd tl ih =>
    by_cases hp : p hd
    · rw [List.find?_cons_of_pos _ hp] at h
      cases h
      rw [List.eraseP_cons_of_pos hp]
    · rw [List.find?_cons_of_neg _ hp] at h
      rw [List.eraseP_cons_of_neg hp]
      exact (List.Perm.swap hd el _).trans ((ih h).cons hd)

theorem eraseP_append_of_forall_not {A B : List (K × V)} {p : K × V → Bool}
    (h : ∀ a ∈ A, ¬p a) : (A ++ B).eraseP p = A ++ B.eraseP p := by
  induction A with
  | nil => rfl
  | cons hd tl ih =>
    rw [List.cons_append, List.eraseP_cons_of_neg (h hd (by simp))]
    rw [ih fun a ha => h a (by simp [ha]), List.cons_append]

theorem Put_present {c : LRU K V} {k : K} (v : V) (hk : k ∈ c.idx) :
    c.Put k v = ({ c with l := (k, v) :: c.l.eraseP (fun p => p.1 == k) }, []) := by
  unfold LRU.Put
  rw [if_pos hk]

theorem Put_absent_no_evict {c : LRU K V} {k : K} (v : V) (hk : k ∉ c.idx)
    (hlen : ((c.l.length : Int) + 1) ≤ c.cap) :
    c.Put k v = ({ c with l := (k, v) :: c.l, idx := k :: c.idx }, []) := by
  unfold LRU.Put
  rw [if_neg hk, if_neg (by simp; omega)]

theorem Put_absent_evict {c : LRU K V} {k : K} (v : V) (hk : k ∉ c.idx)
    (hlen : ((c.l.length : Int) + 1) > c.cap) {tail : K × V}
    (htail : ((k, v) :: c.l).getLast? = some tail) :
    c.Put k v = ({ c with l := ((k, v) :: c.l).dropLast,
                          idx := (k :: c.idx).erase tail.1 },
                 if c.onEvict then [tail] else []) := by
  unfold LRU.Put
  rw [if_neg hk]
  simp only [List.length_cons]
  rw [if_pos (by push_cast; omega), htail]

theorem Get_present {c : LRU K V} {k : K} (hk : k ∈ c.idx) {el : K × V}
    (hfind : c.l.find? (fun p => p.1 == k) = some el) :
    c.Get k = ((el.2, true),
               { c with l := el :: c.l.eraseP (fun p => p.1 == k) }) := by
  unfold LRU.Get
  rw [if_pos hk, hfind]

theorem Get_absent {c : LRU K V} {k : K} (hk : k ∉ c.idx) :
    c.Get k = ((default, false), c) := by
  unfold LRU.Get
  rw [if_neg hk]

/-! ### Fields untouched by the operations -/

theorem cap_Get (c : LRU K V) (k : K) : (c.Get k).2.cap = c.cap := by
  unfold LRU.Get
  split
  · split <;> rfl
  · rfl

theorem idx_Get (c : LRU K V) (k : K) : (c.Get k).2.idx = c.idx := by
  unfold LRU.Get
  split
  · split <;> rfl
  · rfl

theorem onEvict_Get (c : LRU K V) (k : K) : (c.Get k).2.onEvict = c.onEvict := by
  unfold LRU.Get
  split
  · split <;> rfl
  · rfl

theorem cap_Put (c : LRU K V) (k : K) (v : V) : (c.Put k v).1.cap = c.cap := by
  unfold LRU.Put
  split
  · rfl
  · dsimp only
    split
    · split <;> rfl
    · rfl

theorem onEvict_Put (c : LRU K V) (k : K) (v : V) :
    (c.Put k v).1.onEvict = c.onEvict := by
  unfold LRU.Put
  split
  · rfl
  · dsimp only
    split
    · split <;> rfl
    · rfl

theorem cap_applyOp (c : LRU K V) (op : Op K V) : (applyOp c op).cap = c.cap := by
  cases op with
  | get k => exact cap_Get c k
  | put k v => exact cap_Put c k v
  | len => rfl
  | setCallback fn => rfl

theorem cap_runOps (c : LRU K V) (ops : List (Op K V)) :
    (runOps c ops).cap = c.cap := by
  induction ops generalizing c with
  | nil => rfl
  | cons op ops ih => exact (ih (applyOp c op)).trans (cap_applyOp c op)

/-! ### Preservation of well-formedness -/

theorem WF_Get {c : LRU K V} (h : WF c) (k : K) : WF (c.Get k).2 := by
  obtain ⟨hperm, hnd, hlen, hcap⟩ := h
  by_cases hk : k ∈ c.idx
  · have hkeys : k ∈ c.l.map Prod.fst := hperm.mem_iff.1 hk
    obtain ⟨el, hfind⟩ := find?_some_of_mem_keys hkeys
    rw [Get_present hk hfind]
    have hperm2 : (el :: c.l.eraseP (fun p => p.1 == k)).Perm c.l :=
      find?_cons_eraseP_perm hfind
    refine ⟨hperm.trans (hperm2.map Prod.fst).symm,
      ((hperm2.map Prod.fst).symm).nodup hnd, ?_, hcap⟩
    simpa [hperm2.length_eq] using hlen
  · rw [Get_absent hk]
    exact ⟨hperm, hnd, hlen, hcap⟩

theorem WF_Put {c : LRU K V} (h : WF c) (k : K) (v : V) : WF (c.Put k v).1 := by
  obtain ⟨hperm, hnd, hlen, hcap⟩ := h
  by_cases hk : k ∈ c.idx
  · have hkeys : k ∈ c.l.map Prod.fst := hperm.mem_iff.1 hk
    obtain ⟨el, hfind⟩ := find?_some_of_mem_keys hkeys
    rw [Put_present v hk]
    have hperm2 : (el :: c.l.eraseP (fun p => p.1 == k)).Perm c.l :=
      find?_cons_eraseP_perm hfind
    have hmap : ((k, v) :: c.l.eraseP (fun p => p.1 == k)).map Prod.fst =
        (el :: c.l.eraseP (fun p => p.1 == k)).map Prod.fst := by
      simp [find?_key hfind]
    refine ⟨?_, ?_, ?_, hcap⟩
    · rw [hmap]
      exact hperm.trans (hperm2.map Prod.fst).symm
    · rw [hmap]
      exact ((hperm2.map Prod.fst).symm).nodup hnd
    · have hle : (c.l.eraseP (fun p => p.1 == k)).length + 1 = c.l.length := by
        simpa using hperm2.length_eq
      simp only [List.length_cons]
      omega
  · have hknotin : k ∉ c.l.map Prod.fst := fun hmem => hk (hperm.mem_iff.2 hmem)
    have hndcons : ((k, v) :: c.l).map Prod.fst |>.Nodup := by
      rw [List.map_cons, List.nodup_cons]
      exact ⟨hknotin, hnd⟩
    by_cases hfit : ((c.l.length : Int) + 1) ≤ c.cap
    · rw [Put_absent_no_evict v hk hfit]
      exact ⟨hperm.cons k, hndcons, by simp only [List.length_cons]; push_cast; omega, hcap⟩
    · have htail : ((k, v) :: c.l).getLast? = some (c.l.getLast?.getD (k, v)) :=
        List.getLast?_cons
      rw [Put_absent_evict v hk (by omega) htail]
      set tail := c.l.getLast?.getD (k, v) with htaildef
      have hsplit : ((k, v) :: c.l).dropLast ++ [tail] = (k, v) :: c.l :=
        List.dropLast_append_getLast? tail htail
      have hkeysplit : (((k, v) :: c.l).dropLast.map Prod.fst) ++ [tail.1] =
          ((k, v) :: c.l).map Prod.fst := by
        rw [← hsplit]
        simp
      have hndDL : ((((k, v) :: c.l).dropLast.map Prod.fst) ++ [tail.1]).Nodup := by
        rw [hkeysplit]
        exact hndcons
      have htailnot : tail.1 ∉ ((k, v) :: c.l).dropLast.map Prod.fst := by
        rw [List.nodup_append] at hndDL
        intro hmem
        exact hndDL.2.2 hmem (by simp)
      refine ⟨?_, ?_, ?_, hcap⟩
      · have h1 : ((k :: c.idx).erase tail.1).Perm
            ((((k, v) :: c.l).map Prod.fst).erase tail.1) :=
          (hperm.cons k).erase tail.1
        have h2 : (((k, v) :: c.l).map Prod.fst).erase tail.1 =
            ((k, v) :: c.l).dropLast.map Prod.fst := by
          rw [← hkeysplit, List.erase_append_right _ htailnot]
          simp
        rw [h2] at h1
        exact h1
      · exact (List.sublist_append_left _ [tail.1]).nodup hndDL
      · rw [List.length_dropLast]
        simpa using hlen

theorem WF_applyOp {c : LRU K V} (h : WF c) (op : Op K V) : WF (applyOp c op) := by
  cases op with
  | get k => exact WF_Get h k
  | put k v => exact WF_Put h k v
  | len => exact h
  | setCallback fn => exact h

theorem WF_runOps {c : LRU K V} (h : WF c) (ops : List (Op K V)) :
    WF (runOps c ops) := by
  induction ops generalizing c with
  | nil => exact h
  | cons op ops ih => exact ih (WF_applyOp h op)

theorem WF_new {capacity : Int} {c0 : LRU K V}
    (h : NewLRU K V capacity = .ok c0) : WF c0 := by
  obtain ⟨hcap, rfl⟩ := NewLRU_ok h
  exact ⟨List.Perm.refl _, List.nodup_nil, by simp; omega, hcap⟩

theorem Reachable.wf {c : LRU K V} (h : Reachable c) : WF c := by
  obtain ⟨capacity, c0, ops, h0, rfl⟩ := h
  exact WF_runOps (WF_new h0) ops

/-! ### Running a sequence of Puts of fresh keys -/

/-- The operation sequence that Puts each pair of `ps` in order. -/
def putsOf (ps : List (K × V)) : List (Op K V) :=
  ps.map fun p => Op.put p.1 p.2

/-- Putting a sequence of pairwise-distinct fresh keys that fits within the
remaining capacity prepends them, in reverse order, to the recency list and
to the index, and touches nothing else. -/
theorem runOps_putsOf {ps : List (K × V)} {c : LRU K V}
    (hnd : (ps.map Prod.fst).Nodup)
    (hdis : ∀ p ∈ ps, p.1 ∉ c.idx)
    (hlen : (c.l.length : Int) + ps.length ≤ c.cap) :
    (runOps c (putsOf ps)).l = ps.reverse ++ c.l ∧
    (runOps c (putsOf ps)).idx = (ps.map Prod.fst).reverse ++ c.idx ∧
    (runOps c (putsOf ps)).cap = c.cap ∧
    (runOps c (putsOf ps)).onEvict = c.onEvict := by
  induction ps generalizing c with
  | nil => exact ⟨rfl, rfl, rfl, rfl⟩
  | cons p tl ih =>
    have hstep : applyOp c (Op.put p.1 p.2) =
        { c with l := (p.1, p.2) :: c.l, idx := p.1 :: c.idx } := by
      show (c.Put p.1 p.2).1 = _
      rw [Put_absent_no_evict p.2 (hdis p (by simp))
        (by simp only [List.length_cons] at hlen; push_cast at hlen ⊢; omega)]
    have hndtl : (tl.map Prod.fst).Nodup := by
      rw [List.map_cons, List.nodup_cons] at hnd
      exact hnd.2
    have hp1tl : p.1 ∉ tl.map Prod.fst := by
      rw [List.map_cons, List.nodup_cons] at hnd
      exact hnd.1
    have hdis' : ∀ q ∈ tl, q.1 ∉ (p.1 :: c.idx) := by
      intro q hq
      simp only [List.mem_cons]
      rintro (hq1 | hq1)
      · exact hp1tl (hq1 ▸ List.mem_map.2 ⟨q, hq, rfl⟩)
      · exact hdis q (by simp [hq]) hq1
    have hrun : runOps c (putsOf (p :: tl)) =
        runOps { c with l := (p.1, p.2) :: c.l, idx := p.1 :: c.idx } (putsOf tl) := by
      show runOps c (Op.put p.1 p.2 :: putsOf tl) = _
      rw [runOps, List.foldl_cons, hstep]
      rfl
    rw [hrun]
    obtain ⟨h1, h2, h3, h4⟩ :=
      ih (c := { c with l := (p.1, p.2) :: c.l, idx := p.1 :: c.idx }) hndtl hdis'
        (by dsimp only; simp only [List.length_cons] at hlen ⊢; push_cast at hlen ⊢; omega)
    refine ⟨?_, ?_, h3, h4⟩
    · rw [h1]
      simp
    · rw [h2]
      simp

/-! ### Claim theorems -/

/-- C1: for every validly constructed cache with capacity `C` and every
sequence of operations (Puts with any interleaved Gets), `Len() <= C` holds
after every Put returns. -/
theorem capacity_invariant_after_put {capacity : Int} {c0 : LRU K V}
    (h0 : NewLRU K V capacity = .ok c0) (ops : List (Op K V)) (k : K) (v : V) :
    (((runOps c0 ops).Put k v).1).Len ≤ capacity := by
  have hwf : WF ((runOps c0 ops).Put k v).1 :=
    WF_Put (WF_runOps (WF_new h0) ops) k v
  have hcap : ((runOps c0 ops).Put k v).1.cap = capacity := by
    rw [cap_Put, cap_runOps, (NewLRU_ok h0).2]
  show ((((runOps c0 ops).Put k v).1.l.length : Int)) ≤ capacity
  rw [← hcap]
  exact hwf.2.2.1

/-- C1 witness: a capacity-2 cache that received three Puts holds at most
two entries. -/
theorem capacity_invariant_after_put_witness :
    ((runOps (⟨2, [], [], false⟩ : LRU Nat Nat)
        [Op.put 1 1, Op.put 2 2]).Put 3 3).1.Len ≤ 2 :=
  capacity_invariant_after_put (by rfl) [Op.put 1 1, Op.put 2 2] 3 3

/-- C4: in every reachable state, a key is present in the index iff a node
holding that key exists in the recency list, and no key appears twice in the
list. -/
theorem index_list_bijection {c : LRU K V} (h : Reachable c) :
    (∀ k, k ∈ c.idx ↔ ∃ v, (k, v) ∈ c.l) ∧ (c.l.map Prod.fst).Nodup := by
  obtain ⟨hperm, hnd, -, -⟩ := h.wf
  refine ⟨fun k => ?_, hnd⟩
  rw [hperm.mem_iff, List.mem_map]
  constructor
  · rintro ⟨p, hp, rfl⟩
    exact ⟨p.2, hp⟩
  · rintro ⟨v, hv⟩
    exact ⟨(k, v), hv, rfl⟩

/-- C4 witness: the bijection property evaluated on the state reached by
three Puts and a Get on a capacity-2 cache. -/
theorem index_list_bijection_witness :
    (2 ∈ (runOps (⟨2, [], [], false⟩ : LRU Nat Nat)
        [Op.put 1 10, Op.put 2 20, Op.get 1, Op.put 3 30]).idx ↔
      ∃ v, (2, v) ∈ (runOps (⟨2, [], [], false⟩ : LRU Nat Nat)
        [Op.put 1 10, Op.put 2 20, Op.get 1, Op.put 3 30]).l) ∧
    ((runOps (⟨2, [], [], false⟩ : LRU Nat Nat)
        [Op.put 1 10, Op.put 2 20, Op.get 1, Op.put 3 30]).l.map Prod.fst).Nodup :=
  ⟨(index_list_bijection ⟨2, _, _, rfl, rfl⟩).1 2,
   (index_list_bijection ⟨2, _, _, rfl, rfl⟩).2⟩

/-- C5: `Put` on an already-present key updates the stored value, promotes
the node to the front, keeps the resident count and the index unchanged,
performs no eviction (no callback invocation), and leaves every other entry
in place. -/
theorem put_present_overwrite {c : LRU K V} (hwf : WF c) (k : K) (v : V)
    (hk : k ∈ c.idx) :
    (c.Put k v).1.l.head? = some (k, v) ∧
    (c.Put k v).1.Len = c.Len ∧
    (c.Put k v).1.idx = c.idx ∧
    (c.Put k v).2 = [] ∧
    (∀ p : K × V, p.1 ≠ k → ((p ∈ (c.Put k v).1.l) ↔ p ∈ c.l)) := by
  obtain ⟨hperm, hnd, -, -⟩ := hwf
  obtain ⟨el, hfind⟩ := find?_some_of_mem_keys (hperm.mem_iff.1 hk)
  rw [Put_present v hk]
  refine ⟨rfl, ?_, rfl, rfl, ?_⟩
  · have hle : (c.l.eraseP (fun p => p.1 == k)).length + 1 = c.l.length := by
      simpa using (find?_cons_eraseP_perm hfind).length_eq
    show ((((k, v) :: c.l.eraseP (fun p => p.1 == k)).length : Int)) =
      ((c.l.length : Int))
    simp only [List.length_cons]
    omega
  · intro p hp
    have hiff := List.mem_eraseP_of_neg
      (p := fun q : K × V => q.1 == k) (a := p) (l := c.l) (by simp [hp])
    constructor
    · intro hmem
      rcases List.mem_cons.1 hmem with h1 | h1
      · exact absurd (congrArg Prod.fst h1) hp
      · exact hiff.1 h1
    · intro hmem
      exact List.mem_cons.2 (Or.inr (hiff.2 hmem))

/-- C5 witness: overwriting key 1 in a full capacity-2 cache. -/
theorem put_present_overwrite_witness :
    ((⟨2, [(1, 10), (2, 20)], [1, 2], true⟩ : LRU Nat Nat).Put 1 99).1.l.head? =
        some (1, 99) ∧
    ((⟨2, [(1, 10), (2, 20)], [1, 2], true⟩ : LRU Nat Nat).Put 1 99).1.Len =
        (⟨2, [(1, 10), (2, 20)], [1, 2], true⟩ : LRU Nat Nat).Len ∧
    ((⟨2, [(1, 10), (2, 20)], [1, 2], true⟩ : LRU Nat Nat).Put 1 99).1.idx =
        [1, 2] ∧
    ((⟨2, [(1, 10), (2, 20)], [1, 2], true⟩ : LRU Nat Nat).Put 1 99).2 = [] ∧
    (∀ p : Nat × Nat, p.1 ≠ 1 →
      ((p ∈ ((⟨2, [(1, 10), (2, 20)], [1, 2], true⟩ : LRU Nat Nat).Put 1 99).1.l) ↔
        p ∈ [(1, 10), (2, 20)])) :=
  put_present_overwrite (c := (⟨2, [(1, 10), (2, 20)], [1, 2], true⟩ : LRU Nat Nat))
    ⟨by decide, by decide, by decide, by decide⟩ 1 99 (by decide)

/-- C6: `Get` on a present key returns the currently stored value with
`found = true`, moves that node to the front, and changes neither the size
nor the multiset of entries nor the index, capacity or callback. -/
theorem get_present_promotes {c : LRU K V} (hwf : WF c) {k : K}
    (hk : k ∈ c.idx) :
    ∃ v, c.l.find? (fun p => p.1 == k) = some (k, v) ∧
      (c.Get k).1 = (v, true) ∧
      (c.Get k).2.l.head? = some (k, v) ∧
      ((c.Get k).2.l).Perm c.l ∧
      (c.Get k).2.Len = c.Len ∧
      (c.Get k).2.idx = c.idx ∧
      (c.Get k).2.cap = c.cap ∧
      (c.Get k).2.onEvict = c.onEvict := by
  obtain ⟨hperm, hnd, -, -⟩ := hwf
  obtain ⟨⟨e1, e2⟩, hfind⟩ := find?_some_of_mem_keys (hperm.mem_iff.1 hk)
  obtain rfl : e1 = k := find?_key hfind
  have hperm2 := find?_cons_eraseP_perm hfind
  rw [Get_present hk hfind]
  refine ⟨e2, hfind, rfl, rfl, hperm2, ?_, rfl, rfl, rfl⟩
  show ((((e1, e2) :: c.l.eraseP (fun p => p.1 == e1)).length : Int)) =
    ((c.l.length : Int))
  rw [show ((e1, e2) :: c.l.eraseP (fun p => p.1 == e1)).length = c.l.length
    from hperm2.length_eq]

/-- C6 witness: Get on key 1 of a full capacity-2 cache promotes it. -/
theorem get_present_promotes_witness :
    ∃ v, ([(2, 20), (1, 10)] : List (Nat × Nat)).find? (fun p => p.1 == 1) =
        some (1, v) ∧
      ((⟨2, [(2, 20), (1, 10)], [1, 2], false⟩ : LRU Nat Nat).Get 1).1 = (v, true) ∧
      ((⟨2, [(2, 20), (1, 10)], [1, 2], false⟩ : LRU Nat Nat).Get 1).2.l.head? =
        some (1, v) ∧
      (((⟨2, [(2, 20), (1, 10)], [1, 2], false⟩ : LRU Nat Nat).Get 1).2.l).Perm
        [(2, 20), (1, 10)] ∧
      ((⟨2, [(2, 20), (1, 10)], [1, 2], false⟩ : LRU Nat Nat).Get 1).2.Len =
        (⟨2, [(2, 20), (1, 10)], [1, 2], false⟩ : LRU Nat Nat).Len ∧
      ((⟨2, [(2, 20), (1, 10)], [1, 2], false⟩ : LRU Nat Nat).Get 1).2.idx = [1, 2] ∧
      ((⟨2, [(2, 20), (1, 10)], [1, 2], false⟩ : LRU Nat Nat).Get 1).2.cap = 2 ∧
      ((⟨2, [(2, 20), (1, 10)], [1, 2], false⟩ : LRU Nat Nat).Get 1).2.onEvict = false :=
  get_present_promotes (c := (⟨2, [(2, 20), (1, 10)], [1, 2], false⟩ : LRU Nat Nat))
    ⟨by decide, by decide, by decide, by decide⟩ (by decide)

/-- C7: construction with `capacity <= 0` fails with the invalid-capacity
error and returns no cache; construction with `capacity >= 1` succeeds with
an empty cache whose capacity equals the given value and stays fixed under
every operation sequence. -/
theorem new_capacity_validation (K V : Type) [DecidableEq K] [Inhabited V]
    (capacity : Int) :
    (capacity ≤ 0 →
      NewLRU K V capacity = .error "capacity must be greater than 0") ∧
    (1 ≤ capacity → ∃ c0 : LRU K V, NewLRU K V capacity = .ok c0 ∧
      c0.Len = 0 ∧ c0.cap = capacity ∧
      ∀ ops : List (Op K V), (runOps c0 ops).cap = capacity) := by
  constructor
  · intro h
    unfold NewLRU
    rw [if_pos h]
  · intro h
    refine ⟨⟨capacity, [], [], false⟩, ?_, rfl, rfl, fun ops => cap_runOps _ ops⟩
    unfold NewLRU
    rw [if_neg (by omega)]

/-- C7 witness: capacity -1 is rejected, capacity 2 yields an empty cache. -/
theorem new_capacity_validation_witness :
    (NewLRU Nat Nat (-1) = .error "capacity must be greater than 0") ∧
    (∃ c0 : LRU Nat Nat, NewLRU Nat Nat 2 = .ok c0 ∧ c0.Len = 0 ∧ c0.cap = 2 ∧
      ∀ ops : List (Op Nat Nat), (runOps c0 ops).cap = 2) :=
  ⟨(new_capacity_validation Nat Nat (-1)).1 (by decide),
   (new_capacity_validation Nat Nat 2).2 (by decide)⟩

/-- C8: `Get` on a key absent from the index reports `found = false` and
leaves the whole cache state (list, index, capacity, callback) unchanged. -/
theorem get_absent_no_side_effect {c : LRU K V} {k : K} (hk : k ∉ c.idx) :
    (c.Get k).1.2 = false ∧ (c.Get k).2 = c := by
  rw [Get_absent hk]
  exact ⟨rfl, rfl⟩

/-- C8 witness: a miss on key 3 leaves a capacity-2 cache untouched. -/
theorem get_absent_no_side_effect_witness :
    ((⟨2, [(2, 20), (1, 10)], [1, 2], true⟩ : LRU Nat Nat).Get 3).1.2 = false ∧
    ((⟨2, [(2, 20), (1, 10)], [1, 2], true⟩ : LRU Nat Nat).Get 3).2 =
      (⟨2, [(2, 20), (1, 10)], [1, 2], true⟩ : LRU Nat Nat) :=
  get_absent_no_side_effect (by decide)

/-- C10: `Get` on a key absent from the index returns the zero value of the
value type (modelled as `default`) together with `found = false`. -/
theorem get_absent_zero_value {c : LRU K V} {k : K} (hk : k ∉ c.idx) :
    (c.Get k).1 = ((default : V), false) := by
  rw [Get_absent hk]

/-- C10 witness: a miss on an empty cache of Nat values returns `(0, false)`. -/
theorem get_absent_zero_value_witness :
    ((⟨5, [], [], false⟩ : LRU Nat Nat).Get 7).1 = (0, false) :=
  get_absent_zero_value (by decide)

/-- C2: `Put` of an absent key inserts the new entry at the front and
registers it in the index; when the insertion exceeds capacity exactly the
back (least recently used) node is removed, its key leaves the index, and
the eviction callback, when registered, is invoked exactly once with the
evicted key and the value it held; within capacity nothing is removed and
the callback never fires; the callback also never fires for overwrites. -/
theorem put_absent_insert_evict {c : LRU K V} (hwf : WF c) (k : K) (v : V)
    (hk : k ∉ c.idx) :
    ((c.Put k v).1.l.head? = some (k, v) ∧ k ∈ (c.Put k v).1.idx) ∧
    ((c.l.length : Int) + 1 > c.cap →
      ∃ ek ev, c.l.getLast? = some (ek, ev) ∧
        (c.Put k v).1.l = ((k, v) :: c.l).dropLast ∧
        ek ∉ (c.Put k v).1.idx ∧
        (c.Put k v).2 = (if c.onEvict then [(ek, ev)] else [])) ∧
    ((c.l.length : Int) + 1 ≤ c.cap →
      (c.Put k v).1.l = (k, v) :: c.l ∧ (c.Put k v).1.idx = k :: c.idx ∧
        (c.Put k v).2 = []) ∧
    (∀ kp vp, kp ∈ c.idx → (c.Put kp vp).2 = []) := by
  obtain ⟨hperm, hnd, hlen, hcap⟩ := hwf
  have hover : ∀ kp vp, kp ∈ c.idx → (c.Put kp vp).2 = [] := by
    intro kp vp hkp
    rw [Put_present vp hkp]
  by_cases hfit : (c.l.length : Int) + 1 ≤ c.cap
  · rw [Put_absent_no_evict v hk hfit]
    exact ⟨⟨rfl, by simp⟩, fun h => absurd hfit (by omega),
      fun _ => ⟨rfl, rfl, rfl⟩, hover⟩
  · have hne : c.l ≠ [] := by
      intro h
      rw [h] at hfit
      simp at hfit
      omega
    have hlast := List.getLast?_eq_getLast c.l hne
    have htail : ((k, v) :: c.l).getLast? = some (c.l.getLast hne) := by
      rw [List.getLast?_cons, hlast]
      rfl
    have hidxnd : c.idx.Nodup := hperm.symm.nodup hnd
    have hconsnd : (k :: c.idx).Nodup := List.nodup_cons.2 ⟨hk, hidxnd⟩
    rw [Put_absent_evict v hk (by omega) htail]
    refine ⟨⟨?_, ?_⟩, ?_, fun h => absurd h hfit, hover⟩
    · rw [List.dropLast_cons_of_ne_nil hne]
      rfl
    · have hkne : ¬((k == (c.l.getLast hne).1) = true) := by
        simp only [beq_iff_eq]
        intro heq
        exact hk (hperm.mem_iff.2
          (heq ▸ List.mem_map.2 ⟨c.l.getLast hne, List.getLast_mem hne, rfl⟩))
      rw [List.erase_cons_tail hkne]
      exact List.mem_cons_self k _
    · intro hover'
      exact ⟨(c.l.getLast hne).1, (c.l.getLast hne).2, hlast, rfl,
        List.Nodup.not_mem_erase hconsnd, rfl⟩

/-- C2 witness: putting key 2 into a full capacity-1 cache with a registered
callback evicts (1, 10) and reports it once. -/
theorem put_absent_insert_evict_witness :
    ((⟨1, [(1, 10)], [1], true⟩ : LRU Nat Nat).Put 2 20).2 = [(1, 10)] ∧
    ((⟨1, [(1, 10)], [1], true⟩ : LRU Nat Nat).Put 2 20).1.l.head? = some (2, 20) ∧
    2 ∈ ((⟨1, [(1, 10)], [1], true⟩ : LRU Nat Nat).Put 2 20).1.idx ∧
    1 ∉ ((⟨1, [(1, 10)], [1], true⟩ : LRU Nat Nat).Put 2 20).1.idx := by
  have h := put_absent_insert_evict (c := (⟨1, [(1, 10)], [1], true⟩ : LRU Nat Nat))
    ⟨by decide, by decide, by decide, by decide⟩ 2 20 (by decide)
  obtain ⟨⟨h1, h2⟩, h3, -⟩ := h
  obtain ⟨ek, ev, hlast, -, hnotin, hevs⟩ := h3 (by decide)
  have hpair : 1 = ek ∧ 10 = ev := by simpa using hlast
  obtain ⟨he1, he2⟩ := hpair
  subst he1
  subst he2
  exact ⟨by simpa using hevs, h1, h2, hnotin⟩

/-- C3: on a cache of capacity `N` (with a registered callback so the
eviction is observable), inserting distinct keys `k1..kN` in order and then
a fresh key evicts `k1`; performing `Get(k1)` right before the final insert
makes `k2` the victim instead. -/
theorem recency_ordering (k1 : K) (v1 : V) (rest : List (K × V))
    (hnd : (((k1, v1) :: rest).map Prod.fst).Nodup)
    (kN1 : K) (vN1 : V) (hk : kN1 ∉ ((k1, v1) :: rest).map Prod.fst)
    {c0 : LRU K V}
    (h0 : NewLRU K V ((((k1, v1) :: rest).length : Nat) : Int) = .ok c0) :
    (((runOps (c0.SetEvictionCallback true)
          (putsOf ((k1, v1) :: rest))).Put kN1 vN1).2 = [(k1, v1)] ∧
      k1 ∉ ((runOps (c0.SetEvictionCallback true)
          (putsOf ((k1, v1) :: rest))).Put kN1 vN1).1.idx) ∧
    (∀ k2 v2 rest2, rest = (k2, v2) :: rest2 →
      ((((runOps (c0.SetEvictionCallback true)
            (putsOf ((k1, v1) :: rest))).Get k1).2.Put kN1 vN1).2 = [(k2, v2)] ∧
        k2 ∉ (((runOps (c0.SetEvictionCallback true)
            (putsOf ((k1, v1) :: rest))).Get k1).2.Put kN1 vN1).1.idx)) := by
  obtain ⟨hcapge, rfl⟩ := NewLRU_ok h0
  have hsec : (⟨((((k1, v1) :: rest).length : Nat) : Int), [], [],
      false⟩ : LRU K V).SetEvictionCallback true =
      (⟨((((k1, v1) :: rest).length : Nat) : Int), [], [], true⟩ : LRU K V) := rfl
  rw [hsec]
  obtain ⟨hl, hidx, hcapc, hev⟩ := runOps_putsOf
    (c := (⟨((((k1, v1) :: rest).length : Nat) : Int), [], [], true⟩ : LRU K V))
    hnd (by intro p hp; simp) (by simp)
  rw [show (⟨((((k1, v1) :: rest).length : Nat) : Int), [], [],
      true⟩ : LRU K V).l = [] from rfl, List.append_nil] at hl
  rw [show (⟨((((k1, v1) :: rest).length : Nat) : Int), [], [],
      true⟩ : LRU K V).idx = [] from rfl, List.append_nil] at hidx
  rw [show (⟨((((k1, v1) :: rest).length : Nat) : Int), [], [],
      true⟩ : LRU K V).cap = ((((k1, v1) :: rest).length : Nat) : Int) from rfl] at hcapc
  rw [show (⟨((((k1, v1) :: rest).length : Nat) : Int), [], [],
      true⟩ : LRU K V).onEvict = true from rfl] at hev
  have hk1rest : k1 ∉ rest.map Prod.fst := by
    rw [List.map_cons, List.nodup_cons] at hnd
    exact hnd.1
  have hkidx : kN1 ∉ (runOps (⟨((((k1, v1) :: rest).length : Nat) : Int), [], [],
      true⟩ : LRU K V) (putsOf ((k1, v1) :: rest))).idx := by
    rw [hidx, List.mem_reverse]
    exact hk
  have hidxnodup : (runOps (⟨((((k1, v1) :: rest).length : Nat) : Int), [], [],
      true⟩ : LRU K V) (putsOf ((k1, v1) :: rest))).idx.Nodup := by
    rw [hidx]
    exact List.nodup_reverse.2 hnd
  constructor
  · have hlenA : ((runOps (⟨((((k1, v1) :: rest).length : Nat) : Int), [], [],
        true⟩ : LRU K V) (putsOf ((k1, v1) :: rest))).l.length : Int) + 1 >
        (runOps (⟨((((k1, v1) :: rest).length : Nat) : Int), [], [],
        true⟩ : LRU K V) (putsOf ((k1, v1) :: rest))).cap := by
      rw [hl, hcapc]
      simp
    have htailA : ((kN1, vN1) :: (runOps (⟨((((k1, v1) :: rest).length : Nat) : Int),
        [], [], true⟩ : LRU K V) (putsOf ((k1, v1) :: rest))).l).getLast? =
        some (k1, v1) := by
      rw [hl, List.reverse_cons, ← List.cons_append]
      exact List.getLast?_concat _
    rw [Put_absent_evict vN1 hkidx hlenA htailA]
    constructor
    · rw [hev]
      rfl
    · exact List.Nodup.not_mem_erase (List.nodup_cons.2 ⟨hkidx, hidxnodup⟩)
  · intro k2 v2 rest2 hrest
    have hk1idx : k1 ∈ (runOps (⟨((((k1, v1) :: rest).length : Nat) : Int), [], [],
        true⟩ : LRU K V) (putsOf ((k1, v1) :: rest))).idx := by
      rw [hidx, List.mem_reverse]
      simp
    have hnomatch : ∀ x ∈ rest.reverse, ¬((fun p : K × V => p.1 == k1) x = true) := by
      intro x hx
      rw [List.mem_reverse] at hx
      simp only [beq_iff_eq]
      intro hx1
      exact hk1rest (hx1 ▸ List.mem_map.2 ⟨x, hx, rfl⟩)
    have hfind : (runOps (⟨((((k1, v1) :: rest).length : Nat) : Int), [], [],
        true⟩ : LRU K V) (putsOf ((k1, v1) :: rest))).l.find?
          (fun p => p.1 == k1) = some (k1, v1) := by
      rw [hl, List.reverse_cons, List.find?_append, List.find?_eq_none.2 hnomatch]
      simp
    have hGet := Get_present hk1idx hfind
    have hlB : ((runOps (⟨((((k1, v1) :: rest).length : Nat) : Int), [], [],
        true⟩ : LRU K V) (putsOf ((k1, v1) :: rest))).Get k1).2.l =
        (k1, v1) :: rest.reverse := by
      rw [hGet]
      show (k1, v1) :: _ = _
      congr 1
      rw [hl, List.reverse_cons, eraseP_append_of_forall_not hnomatch]
      simp
    have hkB : kN1 ∉ ((runOps (⟨((((k1, v1) :: rest).length : Nat) : Int), [], [],
        true⟩ : LRU K V) (putsOf ((k1, v1) :: rest))).Get k1).2.idx := by
      rw [idx_Get]
      exact hkidx
    have hlenB : (((runOps (⟨((((k1, v1) :: rest).length : Nat) : Int), [], [],
        true⟩ : LRU K V) (putsOf ((k1, v1) :: rest))).Get k1).2.l.length : Int) + 1 >
        ((runOps (⟨((((k1, v1) :: rest).length : Nat) : Int), [], [],
        true⟩ : LRU K V) (putsOf ((k1, v1) :: rest))).Get k1).2.cap := by
      rw [hlB, cap_Get, hcapc]
      simp
    have htailB : ((kN1, vN1) :: ((runOps (⟨((((k1, v1) :: rest).length : Nat) : Int),
        [], [], true⟩ : LRU K V) (putsOf ((k1, v1) :: rest))).Get k1).2.l).getLast? =
        some (k2, v2) := by
      rw [hlB, hrest, List.reverse_cons, ← List.cons_append, ← List.cons_append]
      exact List.getLast?_concat _
    rw [Put_absent_evict vN1 hkB hlenB htailB]
    constructor
    · rw [onEvict_Get, hev]
      rfl
    · apply List.Nodup.not_mem_erase
      rw [idx_Get]
      exact List.nodup_cons.2 ⟨hkidx, hidxnodup⟩

/-- C3 witness: with capacity 2 and inserts of keys 1 then 2, putting key 3
evicts key 1; with a `Get 1` in between, key 2 is evicted instead. -/
theorem recency_ordering_witness :
    ((runOps ((⟨2, [], [], false⟩ : LRU Nat Nat).SetEvictionCallback true)
        (putsOf [(1, 10), (2, 20)])).Put 3 30).2 = [(1, 10)] ∧
    (((runOps ((⟨2, [], [], false⟩ : LRU Nat Nat).SetEvictionCallback true)
        (putsOf [(1, 10), (2, 20)])).Get 1).2.Put 3 30).2 = [(2, 20)] := by
  have h := recency_ordering (K := Nat) (V := Nat) 1 10 [(2, 20)]
    (by decide) 3 30 (by decide) (by rfl)
  exact ⟨h.1.1, (h.2 2 20 [] rfl).1⟩

end GoLRU
